import Mathlib

/-!
Verification of the SpeakPace audio feature & speech-metrics engine.

Shallow embedding of the Python sources:
  * `services/audio_processor.py` — `AudioProcessor.load_audio`, `get_duration`,
    `extract_intensity`, `detect_silence`, `normalize_audio`;
  * `services/speech_analyzer.py` — `SpeechAnalyzer.analyze_pace`,
    `detect_fillers`, `analyze_emphasis`;
  * `main.py` — the `avgPace` / `totalFillers` aggregates of `analyze_audio`.

Modelling conventions: Python floats are idealised as exact rationals (ℚ),
except where the source computes square roots or powers of 10, which we state
over ℝ.  Strings are `List Char` with ASCII classification of word /
whitespace characters.  Transcendental per-frame preprocessing that only
feeds a comparison (the dB curve fed to `detect_silence`, the RMS curve fed
to `extract_intensity` / `analyze_emphasis`) is taken as the function's input
curve, exactly as the spec's component interfaces present it.
-/

namespace SpeakPace

/-- Embeds `AudioProcessor.get_duration`: `len(audio) / self.sample_rate`. -/
def get_duration (sampleRate : ℚ) (audio : List ℚ) : ℚ :=
  (audio.length : ℚ) / sampleRate

/-- Maximum of a list of rationals, as `np.max` computes it on a nonempty
array (the `[]` case is unreachable in the source, where the RMS array of a
clip is never empty; we return `0` there). -/
def maxList : List ℚ → ℚ
  | [] => 0
  | x :: xs => xs.foldl max x

/-- Embeds the normalisation step of `AudioProcessor.extract_intensity`:
`rms_normalized = (rms / np.max(rms)) * 100 if np.max(rms) > 0 else rms`.
The input is the per-frame RMS curve produced by `librosa.feature.rms`
(pointwise `sqrt(mean(sample^2))`, hence nonnegative); the nonnegativity of
that curve enters the theorems as a hypothesis. -/
def extract_intensity (rms : List ℚ) : List ℚ :=
  if 0 < maxList rms then rms.map (fun r => r / maxList rms * 100) else rms

/-- Mean of a list of rationals, as `np.mean` computes it (we let the
unreachable empty case evaluate to `0` via `0 / 0 = 0`). -/
def listMean (xs : List ℚ) : ℚ := xs.sum / (xs.length : ℚ)

/-- Population variance of a list of rationals: `np.std(xs) ^ 2`, i.e. the
mean of the squared deviations from the mean. -/
def listVar (xs : List ℚ) : ℚ :=
  listMean (xs.map (fun x => (x - listMean xs) ^ 2))

/-- Decides the comparison `intens > np.mean(intensity) + np.std(intensity)`
of `SpeechAnalyzer.analyze_emphasis` without leaving ℚ: since
`np.std = sqrt(variance)` and both sides of the original comparison exceed
the mean exactly when this test succeeds, `aboveThr xs x = true` iff
`(x : ℝ) > mean + sqrt variance`; the equivalence is proved in
`aboveThr_iff_real` below. -/
def aboveThr (xs : List ℚ) (x : ℚ) : Bool :=
  decide (listMean xs < x) && decide (listVar xs < (x - listMean xs) ^ 2)

/-- Result record of `analyze_emphasis` (`models/schemas.py EmphasisPoint`). -/
structure EmphasisPoint where
  time : ℚ
  intensity : ℚ
deriving DecidableEq, Repr

/-- Embeds `np.linspace(0, d, n)`. -/
def linspace (d : ℚ) : ℕ → List ℚ
  | 0 => []
  | 1 => [0]
  | n + 2 => (List.range (n + 2)).map (fun (i : ℕ) => (i : ℚ) * d / ((n + 1 : ℕ) : ℚ))

/-- The `emphasis_points` list built by the loop of
`SpeechAnalyzer.analyze_emphasis`: each intensity sample is paired with its
`np.linspace(0, duration, len(intensity))` time and kept, as
`{time, intensity / 100}`, exactly when it lies strictly above the
`mean + std` threshold. -/
def emphasisRaw (intensity : List ℚ) (duration : ℚ) : List EmphasisPoint :=
  ((linspace duration intensity.length).zip intensity).filterMap
    (fun p => if aboveThr intensity p.2 then some ⟨p.1, p.2 / 100⟩ else none)

/-- Embeds lines 64–80 of `SpeechAnalyzer.analyze_emphasis`: the
computation the method performs on an intensity curve once it has one —
the thresholded points, falling back to the single point `{duration/2, 0.5}`
when none qualify.  In the source this code is only reachable after the
`self.audio_processor` dereference on line 63 succeeds; see
`analyze_emphasis` below for the full method including that dereference. -/
def emphasisPoints (intensity : List ℚ) (duration : ℚ) : List EmphasisPoint :=
  if (emphasisRaw intensity duration).isEmpty then [⟨duration / 2, 1 / 2⟩]
  else emphasisRaw intensity duration

/-- Object state of a `SpeechAnalyzer` instance, restricted to the one
attribute `analyze_emphasis` reads.  `audio_processor = none` means the
attribute was never assigned, so reading `self.audio_processor` raises
`AttributeError`.  The class defines no `__init__`, and no statement in the
program assigns this attribute, so only the `none` state is ever realised
(`some ()` models a hypothetical instance on which the attribute was set to
an `AudioProcessor`, whose `extract_intensity` uses no instance state). -/
structure SpeechAnalyzerObj where
  audio_processor : Option Unit
deriving DecidableEq

/-- The instance `main.py` line 32 constructs: `SpeechAnalyzer()`, with no
`__init__` anywhere and no subsequent assignment to `audio_processor`. -/
def speech_analyzer : SpeechAnalyzerObj := ⟨none⟩

/-- Embeds `SpeechAnalyzer.analyze_emphasis`, lines 58–80 of
`speech_analyzer.py`, including the `self.audio_processor` dereference on
line 63: if the attribute is missing the method raises `AttributeError`
(modelled as `Except.error`); otherwise the intensity curve is
`extract_intensity` applied to the clip's per-frame RMS curve (the
transcendental audio-to-RMS step is the function's input, per the
conventions above) and the method returns the thresholded points or the
fallback. -/
def analyze_emphasis (self : SpeechAnalyzerObj) (rms : List ℚ)
    (duration : ℚ) : Except String (List EmphasisPoint) :=
  match self.audio_processor with
  | none => Except.error "AttributeError"
  | some _ => Except.ok (emphasisPoints (extract_intensity rms) duration)

/-- ASCII regex word character (`\w` = letters, digits, underscore). -/
def wordChar (c : Char) : Bool := c.isAlphanum || c = '_'

/-- Whitespace for Python `str.split()` (ASCII fragment). -/
def wsChar (c : Char) : Bool := c.isWhitespace

/-- Helper for `countWords`: the Boolean records whether the previous
character belonged to a word. -/
def countWordsAux : List Char → Bool → ℕ
  | [], _ => 0
  | c :: cs, inW =>
    if wsChar c then countWordsAux cs false
    else (if inW then 0 else 1) + countWordsAux cs true

/-- Number of whitespace-delimited tokens, i.e. `len(transcript.split())`. -/
def countWords (s : List Char) : ℕ := countWordsAux s false

/-- Python `int()` on a rational: truncation toward zero. -/
def pyInt (x : ℚ) : ℤ := if 0 ≤ x then Int.floor x else -Int.floor (-x)

/-- Python 3 `round()` to an integer: round-half-to-even.  On a tie the even
neighbour of the two integers around `x` is chosen; otherwise this is the
nearest integer, which Mathlib's `round` computes. -/
def rhe (x : ℚ) : ℤ :=
  if x - Int.floor x = 1 / 2 then
    (if 2 ∣ Int.floor x then Int.floor x else Int.floor x + 1)
  else round x

/-- Python `round(x, 1)`: round half to even at one decimal place. -/
def round1 (x : ℚ) : ℚ := (rhe (x * 10) : ℚ) / 10

/-- Result record of `analyze_pace` (`models/schemas.py PacePoint`). -/
structure PacePoint where
  time : ℚ
  words_per_minute : ℚ
deriving DecidableEq, Repr

/-- The point count of `analyze_pace`:
`num_points = min(10, max(1, int(duration / 10)))`. -/
def numPoints (duration : ℚ) : ℤ := min 10 (max 1 (pyInt (duration / 10)))

/-- Embeds `SpeechAnalyzer.analyze_pace`, lines 22–44 of
`speech_analyzer.py`: degenerate single point for `duration <= 0` or an
empty word list, otherwise `num_points` evenly spaced points carrying the
clip-average words-per-minute, each coordinate passed through
`round(_, 1)`. -/
def analyze_pace (transcript : List Char) (duration : ℚ) : List PacePoint :=
  if duration ≤ 0 ∨ countWords transcript = 0 then [⟨0, 0⟩]
  else
    (List.range (numPoints duration).toNat).map (fun (i : ℕ) =>
      ⟨round1 (if 1 < numPoints duration then
                 ((i : ℚ) * duration) / ((numPoints duration : ℚ) - 1)
               else 0),
       round1 (((countWords transcript : ℚ) / duration) * 60)⟩)

/-- The 200-word transcript of the spec's Scenario C: two hundred
single-letter words. -/
def paceTranscript200 : List Char := (List.replicate 200 [' ', 'a']).flatten

/-- Embeds the clip RMS of `AudioProcessor.normalize_audio`:
`np.sqrt(np.mean(audio ** 2))`. -/
noncomputable def rmsOf (audio : List ℚ) : ℝ :=
  Real.sqrt ((listMean (audio.map (fun x => x ^ 2)) : ℚ) : ℝ)

/-- Embeds `AudioProcessor.normalize_audio`, lines 151–170 of
`audio_processor.py`: every sample is scaled by the single gain
`target_rms / rms` with `target_rms = 10 ** (target_db / 20)` when the clip
RMS is positive, and by `1` otherwise.  The embedding is a pure function of
its two arguments, as the source method touches no state. -/
noncomputable def normalize_audio (audio : List ℚ) (target_db : ℝ) : List ℝ :=
  audio.map (fun x =>
    (x : ℝ) *
      (if 0 < rmsOf audio then (10 : ℝ) ^ (target_db / 20) / rmsOf audio else 1))

/-- Embeds the `avg_pace` aggregate of `main.py analyze_audio`:
`(word_count / duration) * 60 if duration > 0 else 0`, then `round(_, 1)`. -/
def avgPace (transcript : List Char) (duration : ℚ) : ℚ :=
  round1 (if 0 < duration then ((countWords transcript : ℚ) / duration) * 60 else 0)

/-- Outcome environment for `AudioProcessor.load_audio`, lines 14–42 of
`audio_processor.py`: the four fallible external steps of the two decode
paths.  `none` means the step raises when reached. -/
structure DecodeEnv where
  primary : Option (List ℚ)
  pydubDecode : Option Unit
  exportOk : Bool
  secondary : Option (List ℚ)
deriving DecidableEq

/-- Observable outcome of `load_audio`: the returned samples (`none` = an
exception propagates to the caller) and whether the intermediate `.wav`
file created for the fallback path still exists afterwards. -/
structure LoadResult where
  result : Option (List ℚ)
  tempRemains : Bool
deriving DecidableEq

/-- Embeds the control flow of `AudioProcessor.load_audio`.  The primary
`librosa.load` either succeeds or raises into the fallback.  The fallback
decodes with pydub (raising before any file is created on failure), then
creates a `NamedTemporaryFile(delete=False)` and exports into it inside the
`with` block — an export failure propagates out of the `with` block before
the `try/finally` is entered, leaving the file behind — and finally
re-decodes inside `try: ... finally: os.remove(tmp_path)`, which removes
the file on both the success and the failure of the re-decode. -/
def load_audio (env : DecodeEnv) : LoadResult :=
  match env.primary with
  | some a => ⟨some a, false⟩
  | none =>
    match env.pydubDecode with
    | none => ⟨none, false⟩
    | some _ =>
      if env.exportOk then
        match env.secondary with
        | some a => ⟨some a, false⟩
        | none => ⟨none, false⟩
      else ⟨none, true⟩

/-- Result record of `detect_fillers` (`models/schemas.py FillerWord`). -/
structure FillerWord where
  word : List Char
  count : ℕ
deriving DecidableEq, Repr

/-- The fixed lexicon of `SpeechAnalyzer.detect_fillers`:
`["um", "uh", "like", "you know", "so"]`. -/
def fillerLexicon : List (List Char) :=
  [String.toList "um", String.toList "uh", String.toList "like",
   String.toList "you know", String.toList "so"]

/-- Literal occurrence of `pat` in `s` starting at position `i`. -/
def occursAt (pat s : List Char) (i : ℕ) : Bool :=
  decide ((s.drop i).take pat.length = pat)

/-- Regex `\b` immediately before position `i`, for a pattern that starts
with a word character: `i` is the start of the string or is preceded by a
non-word character. -/
def leftBoundary (s : List Char) : ℕ → Bool
  | 0 => true
  | j + 1 => !wordChar (s.getD j ' ')

/-- Regex `\b` at end position `j`, for a pattern that ends with a word
character: `j` is the end of the string or holds a non-word character. -/
def rightBoundary (s : List Char) (j : ℕ) : Bool :=
  if j < s.length then !wordChar (s.getD j ' ') else true

/-- Whole-word match of `pat` at position `i` of `s`: the literal pattern
flanked by `\b`, as in the `r'\b' + re.escape(word) + r'\b'` patterns of
`detect_fillers` (every lexicon word starts and ends with a word
character). -/
def wwMatchAt (pat s : List Char) (i : ℕ) : Bool :=
  occursAt pat s i && leftBoundary s i && rightBoundary s (i + pat.length)

/-- The number of positions of `s` carrying a whole-word match of `pat` —
the spec's "count of case-insensitive, whole-word (token-boundary)
occurrences", stated positionally. -/
def wholeWordCount (pat s : List Char) : ℕ :=
  (List.range (s.length + 1)).countP (fun i => wwMatchAt pat s i)

/-- Embeds the `re.findall` scan for a `\b`-delimited literal pattern: scan
left to right, and at each match count it and resume after its end,
otherwise advance one position.  The first argument of the recursion is a
scan budget; `findallCount` supplies `s.length + 1`, which reaches the end
of the string for a nonempty pattern. -/
def findallCountAux (pat s : List Char) : ℕ → ℕ → ℕ
  | 0, _ => 0
  | fuel + 1, i =>
    if i ≤ s.length then
      (if wwMatchAt pat s i then 1 + findallCountAux pat s fuel (i + pat.length)
       else findallCountAux pat s fuel (i + 1))
    else 0

/-- The match count of `re.findall(r'\b' + re.escape(word) + r'\b', s)`. -/
def findallCount (pat s : List Char) : ℕ :=
  findallCountAux pat s (s.length + 1) 0

/-- Decidable side condition under which whole-word occurrences of `pat`
cannot overlap: every shift `0 < k < |pat|` either has a word character
just before the shifted start (so no `\b` can hold there) or fails to
overlay `pat` on itself.  It holds for every lexicon word, by `decide`. -/
def selfOverlapFree (pat : List Char) : Bool :=
  (List.range pat.length).all (fun k =>
    decide (k = 0) ||
    wordChar (pat.getD (k - 1) ' ') ||
    decide (pat.drop k ≠ pat.take (pat.length - k)))

/-- Embeds `SpeechAnalyzer.detect_fillers`, lines 46–56 of
`speech_analyzer.py`: for each lexicon word in order, count the
`re.findall` whole-word matches in the lowercased transcript and keep the
words with positive count. -/
def detect_fillers (transcript : List Char) : List FillerWord :=
  fillerLexicon.filterMap (fun w =>
    if 0 < findallCount w (transcript.map Char.toLower) then
      some ⟨w, findallCount w (transcript.map Char.toLower)⟩
    else none)

/-- Embeds the `total_fillers` aggregate of `main.py analyze_audio`:
`sum(fw['count'] for fw in filler_words)`. -/
def totalFillers (fws : List FillerWord) : ℕ :=
  (fws.map (fun fw => fw.count)).sum

/-- Frame times of `detect_silence`:
`librosa.frames_to_time(np.arange(n), sr, hop_length=512)`, i.e. frame `i`
is at `i * 512 / sr` seconds. -/
def silTimes (sr : ℚ) (n : ℕ) : List ℚ :=
  (List.range n).map (fun (i : ℕ) => (i : ℚ) * 512 / sr)

/-- The frame loop of `AudioProcessor.detect_silence` over
`(time, is_silent)` pairs, carrying the Python state
`(silent_segments, in_silence, start_time)` (accumulator passed first in
the result). -/
def silLoop : List (ℚ × Bool) → Bool → ℚ → List (ℚ × ℚ) → List (ℚ × ℚ) × Bool × ℚ
  | [], inS, st, acc => (acc, inS, st)
  | (t, b) :: rest, inS, st, acc =>
    if b = true ∧ inS = false then silLoop rest true t acc
    else if b = false ∧ inS = true then silLoop rest false st (acc ++ [(st, t)])
    else silLoop rest inS st acc

/-- Embeds `AudioProcessor.detect_silence`, lines 103–149 of
`audio_processor.py`, as a function of the per-frame dB curve
(`librosa.amplitude_to_db(rms)`, the transcendental dB map feeding only the
`rms_db < threshold_db` comparison): frames strictly below the threshold
are silent, consecutive silent frames merge into one `(start, end)`
interval ending at the first non-silent frame's time, and a run still open
at the end of the clip closes at the last frame's time (`times[-1]`). -/
def detect_silence (sr : ℚ) (rmsDb : List ℚ) (threshold_db : ℚ) : List (ℚ × ℚ) :=
  match silLoop ((silTimes sr rmsDb.length).zip
      (rmsDb.map (fun x => decide (x < threshold_db)))) false 0 [] with
  | (segs, inS, st) =>
    if inS = true then segs ++ [(st, (silTimes sr rmsDb.length).getLastD 0)]
    else segs

end SpeakPace

namespace SpeakPace

/-- Claim C9: the reported duration equals `sampleCount / sampleRate`
exactly, and under the invariant `sampleRate > 0` it is nonnegative. -/
theorem C9_duration (sampleRate : ℚ) (audio : List ℚ) (h : 0 < sampleRate) :
    get_duration sampleRate audio = (audio.length : ℚ) / sampleRate ∧
    0 ≤ get_duration sampleRate audio := by
  refine ⟨rfl, ?_⟩
  unfold get_duration
  positivity

/-- Witness for C9 at `sampleRate = 16000`, a three-sample clip. -/
theorem C9_duration_witness :
    get_duration 16000 [0, 0, 0] = (3 : ℚ) / 16000 ∧
    0 ≤ get_duration 16000 [0, 0, 0] := by
  have h := C9_duration 16000 [0, 0, 0] (by norm_num)
  simpa using h

theorem le_foldl_max (xs : List ℚ) (a : ℚ) :
    a ≤ xs.foldl max a ∧ ∀ x ∈ xs, x ≤ xs.foldl max a := by
  induction xs generalizing a with
  | nil => exact ⟨le_refl a, by simp⟩
  | cons y ys ih =>
    have h := ih (max a y)
    refine ⟨le_trans (le_max_left a y) h.1, ?_⟩
    intro x hx
    rcases List.mem_cons.mp hx with rfl | hx
    · exact le_trans (le_max_right a x) h.1
    · exact h.2 x hx

theorem foldl_max_mem (xs : List ℚ) (a : ℚ) :
    xs.foldl max a = a ∨ xs.foldl max a ∈ xs := by
  induction xs generalizing a with
  | nil => exact Or.inl rfl
  | cons y ys ih =>
    rcases ih (max a y) with h | h
    · rcases max_choice a y with hm | hm
      · exact Or.inl (by rw [List.foldl_cons, h, hm])
      · exact Or.inr (by rw [List.foldl_cons, h, hm]; exact List.mem_cons_self y ys)
    · exact Or.inr (List.mem_cons_of_mem y h)

theorem le_maxList (xs : List ℚ) (x : ℚ) (hx : x ∈ xs) : x ≤ maxList xs := by
  cases xs with
  | nil => cases hx
  | cons y ys =>
    rcases List.mem_cons.mp hx with rfl | hx
    · exact (le_foldl_max ys x).1
    · exact (le_foldl_max ys y).2 x hx

theorem maxList_mem (xs : List ℚ) (hne : xs ≠ []) : maxList xs ∈ xs := by
  cases xs with
  | nil => exact absurd rfl hne
  | cons y ys =>
    rcases foldl_max_mem ys y with h | h
    · show List.foldl max y ys ∈ y :: ys
      rw [h]
      exact List.mem_cons_self y ys
    · exact List.mem_cons_of_mem y h

theorem maxList_eq_of_mem_of_le (xs : List ℚ) (b : ℚ) (hb : b ∈ xs)
    (hub : ∀ x ∈ xs, x ≤ b) : maxList xs = b := by
  have hne : xs ≠ [] := by rintro rfl; cases hb
  exact le_antisymm (hub _ (maxList_mem xs hne)) (le_maxList xs b hb)

/-- Claim C10: when the clip-wide maximum frame RMS is zero, the intensity
extractor returns the raw RMS array unchanged, and (the curve being
nonnegative) every returned value is `0`; the normalising division is never
taken. -/
theorem C10_zero_max (rms : List ℚ) (h0 : ∀ r ∈ rms, 0 ≤ r)
    (hmax : maxList rms = 0) :
    extract_intensity rms = rms ∧ ∀ v ∈ extract_intensity rms, v = 0 := by
  have hbranch : extract_intensity rms = rms := by
    unfold extract_intensity
    rw [hmax]
    simp
  refine ⟨hbranch, ?_⟩
  intro v hv
  rw [hbranch] at hv
  have h1 := h0 v hv
  have h2 := le_maxList rms v hv
  rw [hmax] at h2
  exact le_antisymm h2 h1

/-- Witness for C10 on a two-frame all-zero RMS curve. -/
theorem C10_zero_max_witness :
    extract_intensity [0, 0] = [0, 0] ∧ ∀ v ∈ extract_intensity [0, 0], v = 0 :=
  C10_zero_max [0, 0] (by decide) (by decide)

/-- Claim C6: when the clip-wide maximum frame RMS is strictly positive,
every frame is rescaled by `100 / max`, every returned value lies in
`[0, 100]`, and the maximum returned value is exactly `100`. -/
theorem C6_normalized (rms : List ℚ) (h0 : ∀ r ∈ rms, 0 ≤ r)
    (hmax : 0 < maxList rms) :
    extract_intensity rms = rms.map (fun r => r / maxList rms * 100) ∧
    (∀ v ∈ extract_intensity rms, 0 ≤ v ∧ v ≤ 100) ∧
    maxList (extract_intensity rms) = 100 := by
  have hbranch : extract_intensity rms = rms.map (fun r => r / maxList rms * 100) := by
    unfold extract_intensity
    rw [if_pos hmax]
  have hne : rms ≠ [] := by
    rintro rfl
    simp [maxList] at hmax
  have hvals : ∀ v ∈ extract_intensity rms, 0 ≤ v ∧ v ≤ 100 := by
    intro v hv
    rw [hbranch] at hv
    rcases List.mem_map.mp hv with ⟨r, hr, rfl⟩
    constructor
    · have := h0 r hr
      positivity
    · have hrle : r ≤ maxList rms := le_maxList rms r hr
      have hdiv : r / maxList rms ≤ 1 := (div_le_one hmax).mpr hrle
      nlinarith
  refine ⟨hbranch, hvals, ?_⟩
  have h100 : (100 : ℚ) ∈ extract_intensity rms := by
    rw [hbranch]
    refine List.mem_map.mpr ⟨maxList rms, maxList_mem rms hne, ?_⟩
    field_simp
  exact maxList_eq_of_mem_of_le _ 100 h100 (fun v hv => (hvals v hv).2)

/-- Witness for C6 on the RMS curve `[1, 2]`. -/
theorem C6_normalized_witness :
    extract_intensity [1, 2] = [1 / 2 * 100, 2 / 2 * 100] ∧
    (∀ v ∈ extract_intensity [1, 2], 0 ≤ v ∧ v ≤ 100) ∧
    maxList (extract_intensity [1, 2]) = 100 := by
  have h := C6_normalized [1, 2] (by decide) (by decide)
  have hm : maxList [(1 : ℚ), 2] = 2 := by decide
  rw [hm] at h
  simpa using h

/-- Claim C8 fails on the code: counterexample where the fallback path is
taken (`primary = none`), the pydub decode succeeds, and the export into the
intermediate file raises — the already-created temporary file survives the
call. -/
theorem C8_counterexample :
    DecodeEnv.primary ⟨none, some (), false, none⟩ = none ∧
    (load_audio ⟨none, some (), false, none⟩).tempRemains = true :=
  ⟨rfl, rfl⟩

/-- Claim C8 amended: on the fallback path, the intermediate file remains
after the call exactly when the pydub decode succeeded (so the file was
created) and the export into it failed; whenever the export succeeds, the
file is deleted before returning on both the success and the failure exit
of the subsequent re-decode. -/
theorem C8_amended (env : DecodeEnv) (hfb : env.primary = none) :
    (load_audio env).tempRemains = true ↔
      (∃ u, env.pydubDecode = some u) ∧ env.exportOk = false := by
  obtain ⟨p, pd, ex, sd⟩ := env
  cases hfb
  cases pd with
  | none => simp [load_audio]
  | some u =>
    cases ex with
    | false => simp [load_audio]
    | true =>
      cases sd with
      | none => simp [load_audio]
      | some a => simp [load_audio]

/-- Witness for the amended C8: fallback taken, export succeeds, re-decode
fails — the intermediate file does not remain. -/
theorem C8_amended_witness :
    (load_audio ⟨none, some (), true, none⟩).tempRemains = true ↔
      (∃ u, DecodeEnv.pydubDecode ⟨none, some (), true, none⟩ = some u) ∧
        DecodeEnv.exportOk ⟨none, some (), true, none⟩ = false :=
  C8_amended ⟨none, some (), true, none⟩ rfl

/-- Claim C5: on `duration <= 0` or a word-free transcript, `analyze_pace`
returns exactly the single point `{time: 0, wpm: 0}`; the `avg_pace`
aggregate is `0` when `duration <= 0` and `wordCount/duration*60` rounded to
one decimal otherwise.  Both embeddings are total functions, so these
degenerate inputs produce values rather than errors. -/
theorem C5_degenerate (s : List Char) (d : ℚ)
    (h : d ≤ 0 ∨ countWords s = 0) :
    analyze_pace s d = [⟨0, 0⟩] ∧
    (d ≤ 0 → avgPace s d = 0) ∧
    (0 < d → avgPace s d = round1 (((countWords s : ℚ) / d) * 60)) := by
  refine ⟨?_, ?_, ?_⟩
  · unfold analyze_pace
    rw [if_pos h]
  · intro hd
    unfold avgPace
    rw [if_neg (not_lt.mpr hd)]
    norm_num [round1, rhe]
  · intro hd
    unfold avgPace
    rw [if_pos hd]

/-- Witness for C5: the empty transcript at `duration = 0`. -/
theorem C5_degenerate_witness :
    analyze_pace [] 0 = [⟨0, 0⟩] ∧
    ((0 : ℚ) ≤ 0 → avgPace [] 0 = 0) ∧
    ((0 : ℚ) < 0 → avgPace [] 0 = round1 (((countWords [] : ℚ) / 0) * 60)) :=
  C5_degenerate [] 0 (Or.inl le_rfl)

theorem listVar_nonneg (xs : List ℚ) : 0 ≤ listVar xs := by
  unfold listVar listMean
  apply div_nonneg
  · apply List.sum_nonneg
    intro x hx
    simp only [List.mem_map] at hx
    obtain ⟨y, -, rfl⟩ := hx
    positivity
  · positivity

theorem aboveThr_iff_real (xs : List ℚ) (x : ℚ) :
    aboveThr xs x = true ↔
      ((listMean xs : ℝ) + Real.sqrt ((listVar xs : ℚ) : ℝ) < (x : ℝ)) := by
  unfold aboveThr
  rw [Bool.and_eq_true, decide_eq_true_iff, decide_eq_true_iff]
  constructor
  · rintro ⟨h1, h2⟩
    have h1' : (listMean xs : ℝ) < (x : ℝ) := by exact_mod_cast h1
    have h2' : ((listVar xs : ℚ) : ℝ) < ((x : ℝ) - (listMean xs : ℝ)) ^ 2 := by
      exact_mod_cast h2
    have hs : Real.sqrt ((listVar xs : ℚ) : ℝ) < (x : ℝ) - (listMean xs : ℝ) :=
      (Real.sqrt_lt' (by linarith)).mpr h2'
    linarith
  · intro h
    have hs0 : 0 ≤ Real.sqrt ((listVar xs : ℚ) : ℝ) := Real.sqrt_nonneg _
    have h1' : (listMean xs : ℝ) < (x : ℝ) := by linarith
    have h1 : listMean xs < x := by exact_mod_cast h1'
    have hs : Real.sqrt ((listVar xs : ℚ) : ℝ) < (x : ℝ) - (listMean xs : ℝ) := by
      linarith
    have h2' := (Real.sqrt_lt' (by linarith)).mp hs
    refine ⟨h1, ?_⟩
    have h2q : ((listVar xs : ℚ) : ℝ) < (((x - listMean xs) ^ 2 : ℚ) : ℝ) := by
      push_cast
      convert h2' using 2
    exact_mod_cast h2q

theorem listMean_replicate (n : ℕ) (c : ℚ) (hn : 0 < n) :
    listMean (List.replicate n c) = c := by
  unfold listMean
  rw [List.sum_replicate, List.length_replicate, nsmul_eq_mul]
  have hne : (n : ℚ) ≠ 0 := Nat.cast_ne_zero.mpr hn.ne'
  field_simp

theorem aboveThr_replicate_self (n : ℕ) (c : ℚ) (hn : 0 < n) :
    aboveThr (List.replicate n c) c = false := by
  unfold aboveThr
  rw [listMean_replicate n c hn]
  simp

theorem length_filterMap_if {α β : Type} (l : List α) (p : α → Bool) (g : α → β) :
    (l.filterMap (fun a => if p a then some (g a) else none)).length = l.countP p := by
  induction l with
  | nil => rfl
  | cons a l ih =>
    by_cases h : p a = true
    · simp [List.filterMap_cons, h, List.countP_cons, ih]
    · simp [List.filterMap_cons, h, List.countP_cons, ih]

/-- Claim C1 describes the intended emphasis detection but the code has a
bug: `SpeechAnalyzer` never initialises `audio_processor` (the class has no
`__init__`, and no statement in the program assigns the attribute), so
every call of `analyze_emphasis` on the instance `main.py` constructs
raises `AttributeError` at the line-63 dereference instead of returning any
emphasis point (first conjunct).  The remaining conjuncts show the claim
correctly describes the computation of lines 64–80 that the crash makes
unreachable: a perfectly flat intensity curve would yield exactly the
single fallback point `{duration/2, 0.5}`; each sample is tested against
the threshold `mean + stddev` of the whole curve; and when at least one
sample is strictly above the threshold, the result has exactly one
`{time, intensity/100}` point per qualifying sample and nothing else. -/
theorem C1_emphasis :
    (∀ (rms : List ℚ) (duration : ℚ),
      analyze_emphasis speech_analyzer rms duration
        = Except.error "AttributeError") ∧
    (∀ (d : ℚ), 0 < d →
      (∀ (n : ℕ) (c : ℚ), 0 < n →
        emphasisPoints (List.replicate n c) d = [⟨d / 2, 1 / 2⟩]) ∧
      (∀ (xs : List ℚ) (x : ℚ),
        aboveThr xs x = true ↔
          ((listMean xs : ℝ) + Real.sqrt ((listVar xs : ℚ) : ℝ) < (x : ℝ))) ∧
      (∀ xs : List ℚ,
        (∃ p ∈ (linspace d xs.length).zip xs, aboveThr xs p.2 = true) →
        (emphasisPoints xs d).length
            = ((linspace d xs.length).zip xs).countP (fun p => aboveThr xs p.2) ∧
        ∀ q ∈ emphasisPoints xs d,
          ∃ p ∈ (linspace d xs.length).zip xs,
            aboveThr xs p.2 = true ∧ q = ⟨p.1, p.2 / 100⟩)) := by
  refine ⟨fun rms duration => rfl, ?_⟩
  intro d _hd
  refine ⟨?_, fun xs x => aboveThr_iff_real xs x, ?_⟩
  · intro n c hn
    have hraw : emphasisRaw (List.replicate n c) d = [] := by
      apply List.filterMap_eq_nil_iff.mpr
      intro p hp
      have hc : p.2 = c := List.eq_of_mem_replicate (List.of_mem_zip hp).2
      rw [hc, aboveThr_replicate_self n c hn]
      simp
    unfold emphasisPoints
    rw [hraw]
    simp
  · intro xs hex
    have hne : emphasisRaw xs d ≠ [] := by
      obtain ⟨p, hp, ha⟩ := hex
      intro hnil
      have hnone := List.filterMap_eq_nil_iff.mp hnil p hp
      rw [ha] at hnone
      simp at hnone
    have hbr : emphasisPoints xs d = emphasisRaw xs d := by
      unfold emphasisPoints
      rw [if_neg]
      rw [List.isEmpty_iff]
      exact hne
    constructor
    · rw [hbr]
      exact length_filterMap_if _ _ _
    · intro q hq
      rw [hbr] at hq
      obtain ⟨p, hp, hval⟩ := List.mem_filterMap.mp hq
      by_cases ha : aboveThr xs p.2 = true
      · rw [if_pos ha] at hval
        exact ⟨p, hp, ha, (Option.some.injEq _ _ ▸ hval).symm⟩
      · rw [if_neg ha] at hval
        cases hval

/-- Witness for C1: the real method call errors on a concrete input, and
the unreachable lines-64–80 computation on a flat three-sample curve of
height 5 over a 2-second clip would yield the single fallback point
`{1, 0.5}`. -/
theorem C1_emphasis_witness :
    analyze_emphasis speech_analyzer [0, 0] 2 = Except.error "AttributeError" ∧
    emphasisPoints (List.replicate 3 (5 : ℚ)) 2 = [⟨1, 1 / 2⟩] := by
  refine ⟨C1_emphasis.1 [0, 0] 2, ?_⟩
  have h := (C1_emphasis.2 2 (by norm_num)).1 3 5 (by norm_num)
  have h2 : (2 : ℚ) / 2 = 1 := by norm_num
  rw [h2] at h
  exact h

/-- Claim C7: `normalize_audio` scales every sample by the single factor
`targetRms / rms` when the clip RMS is positive and leaves the input
unchanged (gain 1) when the RMS is zero; the RMS is nonnegative, so the two
cases are exhaustive.  Purity is inherent in the embedding: the source
method reads and writes no state outside its arguments. -/
theorem C7_normalize (audio : List ℚ) (target_db : ℝ) :
    0 ≤ rmsOf audio ∧
    (0 < rmsOf audio →
      normalize_audio audio target_db
        = audio.map (fun x => (x : ℝ) * ((10 : ℝ) ^ (target_db / 20) / rmsOf audio))) ∧
    (rmsOf audio = 0 →
      normalize_audio audio target_db = audio.map (fun x => (x : ℝ))) := by
  refine ⟨Real.sqrt_nonneg _, ?_, ?_⟩
  · intro h
    unfold normalize_audio
    simp only [if_pos h]
  · intro h
    unfold normalize_audio
    simp only [h, lt_irrefl, if_false, mul_one]

/-- Witness for C7: the all-zero one-sample clip has zero RMS and is
returned unchanged. -/
theorem C7_normalize_witness : normalize_audio [0] 0 = [(0 : ℝ)] := by
  have hr : rmsOf [0] = 0 := by
    unfold rmsOf
    have hm : listMean ([(0 : ℚ)].map (fun x => x ^ 2)) = 0 := by
      norm_num [listMean]
    rw [hm]
    simp
  have h := (C7_normalize [0] 0).2.2 hr
  simpa using h

theorem rhe_le_add_half (x : ℚ) : (rhe x : ℚ) ≤ x + 1 / 2 := by
  unfold rhe
  by_cases htie : x - Int.floor x = 1 / 2
  · rw [if_pos htie]
    by_cases hev : 2 ∣ Int.floor x
    · rw [if_pos hev]
      have := Int.floor_le x
      linarith
    · rw [if_neg hev]
      push_cast
      linarith
  · rw [if_neg htie, round_eq]
    exact_mod_cast Int.floor_le (x + 1 / 2)

theorem rhe_nonneg (x : ℚ) (h : 0 ≤ x) : 0 ≤ (rhe x : ℚ) := by
  unfold rhe
  have hf : (0 : ℤ) ≤ Int.floor x := Int.floor_nonneg.mpr h
  by_cases htie : x - Int.floor x = 1 / 2
  · rw [if_pos htie]
    by_cases hev : 2 ∣ Int.floor x
    · rw [if_pos hev]
      exact_mod_cast hf
    · rw [if_neg hev]
      push_cast
      have : (0 : ℚ) ≤ (Int.floor x : ℚ) := by exact_mod_cast hf
      linarith
  · rw [if_neg htie, round_eq]
    have : (0 : ℤ) ≤ Int.floor (x + 1 / 2) :=
      Int.floor_nonneg.mpr (by linarith)
    exact_mod_cast this

theorem round1_nonneg (x : ℚ) (h : 0 ≤ x) : 0 ≤ round1 x := by
  unfold round1
  have h10 : (0 : ℚ) ≤ x * 10 := by linarith
  have := rhe_nonneg (x * 10) h10
  linarith

theorem round1_le_add (x : ℚ) : round1 x ≤ x + 1 / 20 := by
  unfold round1
  have := rhe_le_add_half (x * 10)
  linarith

theorem round1_zero : round1 0 = 0 := by
  norm_num [round1, rhe]

theorem round1_of_mul_ten_int (x : ℚ) (n : ℤ) (h : x * 10 = (n : ℚ)) :
    round1 x = (n : ℚ) / 10 := by
  unfold round1 rhe
  rw [h, Int.floor_intCast, if_neg (by norm_num), round_intCast]

theorem round1_eval (x : ℚ) (m : ℤ)
    (hne : x * 10 - Int.floor (x * 10) ≠ 1 / 2)
    (hm : Int.floor (x * 10 + 1 / 2) = m) :
    round1 x = (m : ℚ) / 10 := by
  unfold round1 rhe
  rw [if_neg hne, round_eq, hm]

theorem one_le_numPoints (d : ℚ) : 1 ≤ numPoints d := by
  unfold numPoints
  exact le_min (by norm_num) (le_max_left 1 _)

theorem numPoints_le_ten (d : ℚ) : numPoints d ≤ 10 := min_le_left _ _

theorem numPoints_eq_clamp (d : ℚ) (hd : 0 < d) :
    numPoints d = min 10 (max 1 (Int.floor (d / 10))) := by
  unfold numPoints pyInt
  rw [if_pos (by positivity)]

/-- Claim C4 fails on the code: `round(time_point, 1)` can push the last
pace time above `duration`.  At `duration = 20.26 s` (an exact sample count
at 16 kHz: 324160 samples) with a one-word transcript, the second point's
time is `20.3 > 20.26`. -/
theorem C4_counterexample :
    ∃ p ∈ analyze_pace ['a'] (1013 / 50), (1013 / 50 : ℚ) < p.time := by
  have hcw : countWords ['a'] = 1 := by decide
  have hnp : numPoints (1013 / 50) = 2 := by
    rw [numPoints_eq_clamp _ (by norm_num)]
    rw [show Int.floor ((1013 : ℚ) / 50 / 10) = 2 from by norm_num]
    decide
  have hA : round1 ((1013 : ℚ) / 50) = 203 / 10 := by
    have h1 : Int.floor ((1013 : ℚ) / 50 * 10) = 202 := by norm_num
    have h2 := round1_eval ((1013 : ℚ) / 50) 203 (by rw [h1]; norm_num) (by norm_num)
    rw [h2]
    norm_num
  have hB : round1 ((3000 : ℚ) / 1013) = 3 := by
    have h1 : Int.floor ((3000 : ℚ) / 1013 * 10) = 29 := by norm_num
    have h2 := round1_eval ((3000 : ℚ) / 1013) 30 (by rw [h1]; norm_num) (by norm_num)
    rw [h2]
    norm_num
  unfold analyze_pace
  rw [hcw, if_neg (by norm_num), hnp]
  rw [show List.range ((2 : ℤ)).toNat = [0, 1] from by decide]
  refine ⟨⟨203 / 10, 3⟩, ?_, by norm_num⟩
  apply List.mem_map.mpr
  refine ⟨1, by decide, ?_⟩
  show (⟨round1 (if (1 : ℤ) < 2 then ((1 : ℕ) : ℚ) * (1013 / 50) / (((2 : ℤ) : ℚ) - 1) else 0),
         round1 (((1 : ℕ) : ℚ) / (1013 / 50) * 60)⟩ : PacePoint) = ⟨203 / 10, 3⟩
  rw [if_pos (by decide : (1 : ℤ) < 2)]
  rw [show ((1 : ℕ) : ℚ) * (1013 / 50) / (((2 : ℤ) : ℚ) - 1) = 1013 / 50 from by norm_num]
  rw [show ((1 : ℕ) : ℚ) / (1013 / 50) * 60 = 3000 / 1013 from by norm_num]
  rw [hA, hB]

set_option maxRecDepth 10000 in
/-- Claim C4 amended: for a transcript with at least one word and
`duration > 0`, `computePace` returns `clamp(floor(d/10), 1, 10)` points
(always between 1 and 10); point `i`'s time is
`round1(i*d/(numPoints-1))` (one-decimal rounding, `0` when
`numPoints = 1`), hence lies in `[0, d + 0.05]` — rounding can exceed `d`
by up to `0.05` — and every point carries the same
`wordsPerMinute = round1(wordCount/d*60)`; Scenario C (65 s, 200 words)
gives exactly the six points at times 0, 13, 26, 39, 52, 65 with
words-per-minute 184.6. -/
theorem C4_amended (s : List Char) (d : ℚ) (hw : countWords s ≠ 0)
    (hd : 0 < d) :
    numPoints d = min 10 (max 1 (Int.floor (d / 10))) ∧
    1 ≤ numPoints d ∧ numPoints d ≤ 10 ∧
    (analyze_pace s d).length = (numPoints d).toNat ∧
    (∀ (i : ℕ) (h : i < (analyze_pace s d).length),
      (analyze_pace s d).get ⟨i, h⟩
        = ⟨round1 (if 1 < numPoints d then
                     ((i : ℚ) * d) / ((numPoints d : ℚ) - 1) else 0),
           round1 (((countWords s : ℚ) / d) * 60)⟩) ∧
    (∀ p ∈ analyze_pace s d,
      0 ≤ p.time ∧ p.time ≤ d + 1 / 20 ∧
      p.words_per_minute = round1 (((countWords s : ℚ) / d) * 60)) ∧
    analyze_pace paceTranscript200 65
      = [⟨0, 923 / 5⟩, ⟨13, 923 / 5⟩, ⟨26, 923 / 5⟩,
         ⟨39, 923 / 5⟩, ⟨52, 923 / 5⟩, ⟨65, 923 / 5⟩] := by
  have hbr : analyze_pace s d
      = (List.range (numPoints d).toNat).map (fun (i : ℕ) =>
          ⟨round1 (if 1 < numPoints d then
                     ((i : ℚ) * d) / ((numPoints d : ℚ) - 1) else 0),
           round1 (((countWords s : ℚ) / d) * 60)⟩) := by
    unfold analyze_pace
    rw [if_neg (by simp only [not_or, not_le]; exact ⟨hd, hw⟩)]
  have hlen : (analyze_pace s d).length = (numPoints d).toNat := by
    rw [hbr]
    simp
  have htime : ∀ i : ℕ, (i : ℤ) < numPoints d →
      0 ≤ (if 1 < numPoints d then ((i : ℚ) * d) / ((numPoints d : ℚ) - 1) else 0) ∧
      (if 1 < numPoints d then ((i : ℚ) * d) / ((numPoints d : ℚ) - 1) else 0) ≤ d := by
    intro i hi
    by_cases h1 : 1 < numPoints d
    · rw [if_pos h1]
      have hn1 : (0 : ℚ) < (numPoints d : ℚ) - 1 := by
        have : (1 : ℚ) < (numPoints d : ℚ) := by exact_mod_cast h1
        linarith
      have hiq : (i : ℚ) ≤ (numPoints d : ℚ) - 1 := by
        have : (i : ℤ) ≤ numPoints d - 1 := by omega
        have h2 : ((i : ℤ) : ℚ) ≤ ((numPoints d - 1 : ℤ) : ℚ) := by exact_mod_cast this
        push_cast at h2
        push_cast
        linarith
      constructor
      · positivity
      · rw [div_le_iff₀ hn1]
        calc (i : ℚ) * d ≤ ((numPoints d : ℚ) - 1) * d := by
              exact mul_le_mul_of_nonneg_right hiq hd.le
          _ = d * ((numPoints d : ℚ) - 1) := by ring
    · rw [if_neg h1]
      exact ⟨le_refl 0, hd.le⟩
  refine ⟨numPoints_eq_clamp d hd, one_le_numPoints d, numPoints_le_ten d, hlen, ?_, ?_, ?_⟩
  · intro i h
    rw [List.get_of_eq hbr ⟨i, h⟩]
    simp [List.get_eq_getElem, List.getElem_map, List.getElem_range]
  · intro p hp
    rw [hbr] at hp
    obtain ⟨i, hi, rfl⟩ := List.mem_map.mp hp
    have hiZ : (i : ℤ) < numPoints d := by
      rw [List.mem_range] at hi
      have h1 : (1 : ℤ) ≤ numPoints d := one_le_numPoints d
      omega
    obtain ⟨ht0, htd⟩ := htime i hiZ
    refine ⟨round1_nonneg _ ht0, ?_, rfl⟩
    calc round1 (if 1 < numPoints d then ((i : ℚ) * d) / ((numPoints d : ℚ) - 1) else 0)
        ≤ (if 1 < numPoints d then ((i : ℚ) * d) / ((numPoints d : ℚ) - 1) else 0) + 1 / 20 :=
          round1_le_add _
      _ ≤ d + 1 / 20 := by linarith
  · have hw200 : countWords paceTranscript200 = 200 := by decide
    have hnp : numPoints 65 = 6 := by
      rw [numPoints_eq_clamp _ (by norm_num)]
      rw [show Int.floor ((65 : ℚ) / 10) = 6 from by norm_num]
      decide
    unfold analyze_pace
    rw [hw200, if_neg (by norm_num), hnp]
    rw [show List.range ((6 : ℤ)).toNat = [0, 1, 2, 3, 4, 5] from by decide]
    norm_num [round1, rhe, round_eq]

/-- Witness for the amended C4 at a one-word transcript and a 30-second
clip. -/
theorem C4_amended_witness :
    numPoints 30 = min 10 (max 1 (Int.floor ((30 : ℚ) / 10))) ∧
    1 ≤ numPoints 30 ∧ numPoints 30 ≤ 10 ∧
    (analyze_pace ['a'] 30).length = (numPoints 30).toNat ∧
    (∀ (i : ℕ) (h : i < (analyze_pace ['a'] 30).length),
      (analyze_pace ['a'] 30).get ⟨i, h⟩
        = ⟨round1 (if 1 < numPoints 30 then
                     ((i : ℚ) * 30) / ((numPoints 30 : ℚ) - 1) else 0),
           round1 (((countWords ['a'] : ℚ) / 30) * 60)⟩) ∧
    (∀ p ∈ analyze_pace ['a'] 30,
      0 ≤ p.time ∧ p.time ≤ 30 + 1 / 20 ∧
      p.words_per_minute = round1 (((countWords ['a'] : ℚ) / 30) * 60)) ∧
    analyze_pace paceTranscript200 65
      = [⟨0, 923 / 5⟩, ⟨13, 923 / 5⟩, ⟨26, 923 / 5⟩,
         ⟨39, 923 / 5⟩, ⟨52, 923 / 5⟩, ⟨65, 923 / 5⟩] :=
  C4_amended ['a'] 30 (by decide) (by norm_num)

theorem leftBoundary_succ (s : List Char) (j : ℕ) :
    leftBoundary s (j + 1) = !wordChar (s.getD j ' ') := rfl

theorem occursAt_bound (pat s : List Char) (i : ℕ) (hne : pat ≠ [])
    (h : occursAt pat s i = true) : i + pat.length ≤ s.length := by
  unfold occursAt at h
  rw [decide_eq_true_iff] at h
  have hlen := congrArg List.length h
  rw [List.length_take, List.length_drop] at hlen
  have hplen : 0 < pat.length := List.length_pos.mpr hne
  have hle : pat.length ≤ s.length - i := hlen ▸ min_le_right _ _
  omega

theorem occursAt_getElem (pat s : List Char) (i : ℕ)
    (h : occursAt pat s i = true) (m : ℕ) (hm : m < pat.length) :
    s[i + m]? = pat[m]? := by
  unfold occursAt at h
  rw [decide_eq_true_iff] at h
  have hm2 := congrArg (fun l => l[m]?) h
  simp only at hm2
  rw [List.getElem?_take, if_pos hm, List.getElem?_drop] at hm2
  exact hm2

theorem wwMatchAt_no_overlap (pat s : List Char) (hne : pat ≠ [])
    (hfree : selfOverlapFree pat = true) (i k : ℕ) (hk0 : 0 < k)
    (hkl : k < pat.length) (hi : wwMatchAt pat s i = true)
    (hj : wwMatchAt pat s (i + k) = true) : False := by
  unfold wwMatchAt at hi hj
  simp only [Bool.and_eq_true] at hi hj
  obtain ⟨⟨hiocc, -⟩, -⟩ := hi
  obtain ⟨⟨hjocc, hjlb⟩, -⟩ := hj
  rw [show i + k = (i + k - 1) + 1 from by omega, leftBoundary_succ] at hjlb
  have hchar : s.getD (i + k - 1) ' ' = pat.getD (k - 1) ' ' := by
    have h1 : s[i + (k - 1)]? = pat[k - 1]? :=
      occursAt_getElem pat s i hiocc (k - 1) (by omega)
    rw [List.getD_eq_getElem?_getD, List.getD_eq_getElem?_getD,
      show i + k - 1 = i + (k - 1) from by omega, h1]
  rw [hchar] at hjlb
  have hword : wordChar (pat.getD (k - 1) ' ') = false := by
    cases hww : wordChar (pat.getD (k - 1) ' ') with
    | false => rfl
    | true => rw [hww] at hjlb; simp at hjlb
  have hk := (List.all_eq_true.mp hfree) k (List.mem_range.mpr hkl)
  rw [hword] at hk
  simp only [Bool.or_false, Bool.false_or, Bool.or_eq_true, decide_eq_true_iff] at hk
  have hdrop : pat.drop k ≠ pat.take (pat.length - k) := by
    rcases hk with hk | hk
    · exact absurd hk (by omega)
    · exact hk
  apply hdrop
  apply List.ext_getElem?
  intro m
  rw [List.getElem?_drop, List.getElem?_take]
  by_cases hmlt : m < pat.length - k
  · rw [if_pos hmlt]
    have h1 := occursAt_getElem pat s i hiocc (k + m) (by omega)
    have h2 := occursAt_getElem pat s (i + k) hjocc m (by omega)
    rw [show i + (k + m) = (i + k) + m from by omega] at h1
    rw [← h1, h2]
  · rw [if_neg hmlt]
    exact List.getElem?_eq_none (by omega)

theorem countP_split (l : List ℕ) (p q r : ℕ → Bool)
    (h : ∀ x ∈ l, p x = (q x || r x) ∧ ¬(q x = true ∧ r x = true)) :
    l.countP p = l.countP q + l.countP r := by
  induction l with
  | nil => rfl
  | cons a l ih =>
    have ha := h a (List.mem_cons_self a l)
    have hl := fun x hx => h x (List.mem_cons_of_mem a hx)
    rw [List.countP_cons, List.countP_cons, List.countP_cons, ih hl]
    have hpa := ha.1
    have hdis := ha.2
    cases hq : q a with
    | false =>
      cases hr : r a with
      | false =>
        rw [hq, hr] at hpa
        simp only [Bool.or_false] at hpa
        rw [hpa]
        simp
      | true =>
        rw [hq, hr] at hpa
        simp only [Bool.false_or] at hpa
        rw [hpa]
        simp
        omega
    | true =>
      cases hr : r a with
      | false =>
        rw [hq, hr] at hpa
        simp only [Bool.or_false] at hpa
        rw [hpa]
        simp
        omega
      | true => exact absurd ⟨hq, hr⟩ hdis

theorem countP_range_single (m i : ℕ) :
    (List.range m).countP (fun j => decide (j = i)) = if i < m then 1 else 0 := by
  induction m with
  | zero => simp
  | succ m ih =>
    rw [List.range_succ, List.countP_append, ih]
    by_cases him : i < m
    · rw [if_pos him, if_pos (by omega)]
      have : ¬ (m = i) := by omega
      simp [List.countP_cons, this]
    · by_cases him2 : i = m
      · subst him2
        rw [if_neg (by omega), if_pos (by omega)]
        simp [List.countP_cons]
      · rw [if_neg him, if_neg (by omega)]
        have : ¬ (m = i) := by omega
        simp [List.countP_cons, this]

theorem findallCountAux_eq (pat s : List Char) (hne : pat ≠ [])
    (hfree : selfOverlapFree pat = true) :
    ∀ (fuel i : ℕ), s.length + 1 ≤ fuel + i →
      findallCountAux pat s fuel i
        = (List.range (s.length + 1)).countP
            (fun j => decide (i ≤ j) && wwMatchAt pat s j) := by
  have hplen : 0 < pat.length := List.length_pos.mpr hne
  intro fuel
  induction fuel with
  | zero =>
    intro i hi
    have h0 : findallCountAux pat s 0 i = 0 := rfl
    rw [h0]
    symm
    rw [List.countP_eq_zero]
    intro j hj
    rw [List.mem_range] at hj
    simp only [Bool.and_eq_true, decide_eq_true_iff, not_and]
    intro hij
    exact absurd hij (by omega)
  | succ fuel ih =>
    intro i hi
    by_cases hile : i ≤ s.length
    · by_cases hm : wwMatchAt pat s i = true
      · have hstep : findallCountAux pat s (fuel + 1) i
            = 1 + findallCountAux pat s fuel (i + pat.length) := by
          simp only [findallCountAux]
          rw [if_pos hile, if_pos hm]
        rw [hstep, ih (i + pat.length) (by omega)]
        have hside : ∀ x ∈ List.range (s.length + 1),
            (fun j => decide (i ≤ j) && wwMatchAt pat s j) x
              = ((fun j => decide (j = i)) x
                  || (fun j => decide (i + pat.length ≤ j) && wwMatchAt pat s j) x) ∧
            ¬((fun j => decide (j = i)) x = true
                ∧ (fun j => decide (i + pat.length ≤ j) && wwMatchAt pat s j) x = true) := by
          intro j hj
          constructor
          · by_cases hji : j = i
            · subst hji
              simp [hm]
            · by_cases hij : i ≤ j
              · by_cases hjr : i + pat.length ≤ j
                · simp [hji, hij, hjr]
                · have hMj : wwMatchAt pat s j = false := by
                    cases hMM : wwMatchAt pat s j with
                    | false => rfl
                    | true =>
                      exact (wwMatchAt_no_overlap pat s hne hfree i (j - i)
                        (by omega) (by omega) hm
                        (by rw [show i + (j - i) = j from by omega]; exact hMM)).elim
                  simp [hji, hij, hjr, hMj]
              · simp [hji, hij, show ¬(i + pat.length ≤ j) from by omega]
          · rintro ⟨h1, h2⟩
            simp only [decide_eq_true_iff] at h1
            simp only [Bool.and_eq_true, decide_eq_true_iff] at h2
            omega
        rw [countP_split (List.range (s.length + 1)) _ _ _ hside]
        rw [countP_range_single, if_pos (by omega)]
      · have hstep : findallCountAux pat s (fuel + 1) i
            = findallCountAux pat s fuel (i + 1) := by
          simp only [findallCountAux]
          rw [if_pos hile, if_neg hm]
        rw [hstep, ih (i + 1) (by omega)]
        apply List.countP_congr
        intro j hj
        have hMi : wwMatchAt pat s i = false := by
          cases hMM : wwMatchAt pat s i with
          | false => rfl
          | true => exact absurd hMM hm
        by_cases hji : j = i
        · subst hji
          simp [hMi, show ¬(j + 1 ≤ j) from by omega]
        · have hiff : (i + 1 ≤ j) ↔ (i ≤ j) := by omega
          simp [hiff]
    · have hstep : findallCountAux pat s (fuel + 1) i = 0 := by
        simp only [findallCountAux]
        rw [if_neg hile]
      rw [hstep]
      symm
      rw [List.countP_eq_zero]
      intro j hj
      rw [List.mem_range] at hj
      simp only [Bool.and_eq_true, decide_eq_true_iff, not_and]
      intro hij
      exact absurd hij (by omega)

theorem findallCount_eq_wholeWordCount (pat s : List Char) (hne : pat ≠ [])
    (hfree : selfOverlapFree pat = true) :
    findallCount pat s = wholeWordCount pat s := by
  unfold findallCount wholeWordCount
  rw [findallCountAux_eq pat s hne hfree (s.length + 1) 0 (by omega)]
  apply List.countP_congr
  intro j hj
  simp

theorem detect_fillers_words_sublist (s : List Char) :
    List.Sublist ((detect_fillers s).map (fun fw => fw.word)) fillerLexicon := by
  unfold detect_fillers
  generalize fillerLexicon = l
  induction l with
  | nil => simp
  | cons w l ih =>
    rw [List.filterMap_cons]
    by_cases h : 0 < findallCount w (s.map Char.toLower)
    · rw [if_pos h]
      simp only [List.map_cons]
      exact List.Sublist.cons₂ w ih
    · rw [if_neg h]
      exact List.Sublist.cons w ih

set_option maxRecDepth 10000 in
/-- Claim C3: every returned filler entry has a positive count equal to the
number of case-insensitive whole-word (token-boundary) occurrences of that
lexicon word in the transcript; the result follows lexicon order (its words
form a sublist of the lexicon); the transcript
"um like this is a test um" gives exactly `[{um, 2}, {like, 1}]` with
`totalFillers = 3`; and "so" inside "social" does not match. -/
theorem C3_fillers :
    (∀ (s : List Char), ∀ fw ∈ detect_fillers s,
       0 < fw.count ∧ fw.count = wholeWordCount fw.word (s.map Char.toLower)) ∧
    (∀ s : List Char,
       List.Sublist ((detect_fillers s).map (fun fw => fw.word)) fillerLexicon) ∧
    detect_fillers (String.toList "um like this is a test um")
      = [⟨String.toList "um", 2⟩, ⟨String.toList "like", 1⟩] ∧
    totalFillers (detect_fillers (String.toList "um like this is a test um")) = 3 ∧
    wholeWordCount (String.toList "so") (String.toList "social") = 0 := by
  refine ⟨?_, detect_fillers_words_sublist, by decide, by decide, by decide⟩
  intro s fw hfw
  unfold detect_fillers at hfw
  obtain ⟨w, hwmem, hval⟩ := List.mem_filterMap.mp hfw
  by_cases hpos : 0 < findallCount w (s.map Char.toLower)
  · rw [if_pos hpos] at hval
    have hfw2 : fw = ⟨w, findallCount w (s.map Char.toLower)⟩ :=
      (Option.some.inj hval).symm
    subst hfw2
    refine ⟨hpos, ?_⟩
    have hprops : w ≠ [] ∧ selfOverlapFree w = true := by
      simp only [fillerLexicon, List.mem_cons, List.not_mem_nil, or_false] at hwmem
      rcases hwmem with rfl | rfl | rfl | rfl | rfl <;> exact ⟨by decide, by decide⟩
    exact findallCount_eq_wholeWordCount w (s.map Char.toLower) hprops.1 hprops.2
  · rw [if_neg hpos] at hval
    cases hval

set_option maxRecDepth 10000 in
/-- Witness for C3: the entry `{um, 2}` of the example transcript. -/
theorem C3_fillers_witness :
    0 < (2 : ℕ) ∧ (2 : ℕ)
      = wholeWordCount (String.toList "um")
          ((String.toList "um like this is a test um").map Char.toLower) := by
  have h := C3_fillers.1 (String.toList "um like this is a test um")
      ⟨String.toList "um", 2⟩ (by decide)
  exact h

theorem silLoop_cons (t : ℚ) (b : Bool) (rest : List (ℚ × Bool)) (inS : Bool)
    (st : ℚ) (acc : List (ℚ × ℚ)) :
    silLoop ((t, b) :: rest) inS st acc =
      if b = true ∧ inS = false then silLoop rest true t acc
      else if b = false ∧ inS = true then silLoop rest false st (acc ++ [(st, t)])
      else silLoop rest inS st acc := rfl

/-- Invariant lemma for the frame loop of `detect_silence`: with strictly
increasing frame times, the accumulated segments stay disjoint and ordered,
every closed segment is nondegenerate, and while a silence run is open its
start lies strictly after every accumulated end and is one of the processed
frame times. -/
theorem silLoop_spec :
    ∀ (l : List (ℚ × Bool)) (inS : Bool) (st : ℚ) (acc : List (ℚ × ℚ)),
      List.Pairwise (fun a b => a < b) (l.map Prod.fst) →
      List.Chain' (fun p q => p.2 < q.1) acc →
      (∀ p ∈ acc, p.1 < p.2) →
      (∀ t ∈ l.map Prod.fst, ∀ p ∈ acc, p.2 < t) →
      (inS = true → ∀ t ∈ l.map Prod.fst, st < t) →
      (inS = true → ∀ p ∈ acc, p.2 < st) →
      List.Chain' (fun p q => p.2 < q.1) (silLoop l inS st acc).1 ∧
      (∀ p ∈ (silLoop l inS st acc).1, p.1 < p.2) ∧
      ((silLoop l inS st acc).2.1 = true →
        (∀ p ∈ (silLoop l inS st acc).1, p.2 < (silLoop l inS st acc).2.2) ∧
        ((inS = true ∧ (silLoop l inS st acc).2.2 = st) ∨
          (silLoop l inS st acc).2.2 ∈ l.map Prod.fst)) := by
  intro l
  induction l with
  | nil =>
    intro inS st acc hA hB hC hD hE hF
    exact ⟨hB, hC, fun h2 => ⟨hF h2, Or.inl ⟨h2, rfl⟩⟩⟩
  | cons hd tl ih =>
    obtain ⟨t, b⟩ := hd
    intro inS st acc hA hB hC hD hE hF
    rw [List.map_cons] at hA hD hE
    have hA' := (List.pairwise_cons.mp hA).2
    have hhead := (List.pairwise_cons.mp hA).1
    rw [silLoop_cons]
    by_cases hcond1 : b = true ∧ inS = false
    · rw [if_pos hcond1]
      have hD' : ∀ t' ∈ tl.map Prod.fst, ∀ p ∈ acc, p.2 < t' :=
        fun t' ht' => hD t' (List.mem_cons_of_mem t ht')
      have hE' : true = true → ∀ t' ∈ tl.map Prod.fst, t < t' :=
        fun _ t' ht' => hhead t' ht'
      have hF' : true = true → ∀ p ∈ acc, p.2 < t :=
        fun _ p hp => hD t (List.mem_cons_self t _) p hp
      obtain ⟨p1, p2, p3⟩ := ih true t acc hA' hB hC hD' hE' hF'
      refine ⟨p1, p2, ?_⟩
      intro h2
      obtain ⟨q1, q2⟩ := p3 h2
      refine ⟨q1, Or.inr ?_⟩
      rcases q2 with ⟨-, hst⟩ | hmem
      · rw [hst]
        exact List.mem_cons_self t _
      · exact List.mem_cons_of_mem t hmem
    · rw [if_neg hcond1]
      by_cases hcond2 : b = false ∧ inS = true
      · rw [if_pos hcond2]
        have hstt : st < t := hE hcond2.2 t (List.mem_cons_self t _)
        have hB' : List.Chain' (fun p q => p.2 < q.1) (acc ++ [(st, t)]) := by
          apply List.Chain'.append hB (List.chain'_singleton _)
          intro x hx y hy
          rw [List.head?_cons, Option.mem_some_iff] at hy
          subst hy
          have hxm : x ∈ acc := by
            cases hacc : acc.getLast? with
            | none => rw [hacc] at hx; cases hx
            | some a =>
              rw [hacc, Option.mem_some_iff] at hx
              subst hx
              have hne : acc ≠ [] := by
                intro hnil
                rw [hnil] at hacc
                cases hacc
              have hsome := List.getLast?_eq_getLast_of_ne_nil hne
              rw [hacc] at hsome
              obtain rfl : a = acc.getLast hne := Option.some.inj hsome
              exact List.getLast_mem hne
          exact hF hcond2.2 x hxm
        have hC' : ∀ p ∈ acc ++ [(st, t)], p.1 < p.2 := by
          intro p hp
          rcases List.mem_append.mp hp with hp | hp
          · exact hC p hp
          · rw [List.mem_singleton] at hp
            subst hp
            exact hstt
        have hD' : ∀ t' ∈ tl.map Prod.fst, ∀ p ∈ acc ++ [(st, t)], p.2 < t' := by
          intro t' ht' p hp
          rcases List.mem_append.mp hp with hp | hp
          · exact hD t' (List.mem_cons_of_mem t ht') p hp
          · rw [List.mem_singleton] at hp
            subst hp
            exact hhead t' ht'
        have hE' : false = true → ∀ t' ∈ tl.map Prod.fst, st < t' := by
          intro h
          cases h
        have hF' : false = true → ∀ p ∈ acc ++ [(st, t)], p.2 < st := by
          intro h
          cases h
        obtain ⟨p1, p2, p3⟩ := ih false st (acc ++ [(st, t)]) hA' hB' hC' hD' hE' hF'
        refine ⟨p1, p2, ?_⟩
        intro h2
        obtain ⟨q1, q2⟩ := p3 h2
        refine ⟨q1, ?_⟩
        rcases q2 with ⟨hfalse, -⟩ | hmem
        · cases hfalse
        · exact Or.inr (List.mem_cons_of_mem t hmem)
      · rw [if_neg hcond2]
        have hD' : ∀ t' ∈ tl.map Prod.fst, ∀ p ∈ acc, p.2 < t' :=
          fun t' ht' => hD t' (List.mem_cons_of_mem t ht')
        have hE' : inS = true → ∀ t' ∈ tl.map Prod.fst, st < t' :=
          fun hs t' ht' => hE hs t' (List.mem_cons_of_mem t ht')
        obtain ⟨p1, p2, p3⟩ := ih inS st acc hA' hB hC hD' hE' hF
        refine ⟨p1, p2, ?_⟩
        intro h2
        obtain ⟨q1, q2⟩ := p3 h2
        refine ⟨q1, ?_⟩
        rcases q2 with hl | hmem
        · exact Or.inl hl
        · exact Or.inr (List.mem_cons_of_mem t hmem)

/-- After the loop of `detect_silence` runs over a nonempty frame list, the
`in_silence` flag equals the last frame's silence flag. -/
theorem silLoop_last :
    ∀ (l : List (ℚ × Bool)) (inS : Bool) (st : ℚ) (acc : List (ℚ × ℚ))
      (hne : l ≠ []),
      (silLoop l inS st acc).2.1 = (l.getLast hne).2 := by
  intro l
  induction l with
  | nil =>
    intro _ _ _ hne
    exact absurd rfl hne
  | cons hd tl ih =>
    obtain ⟨t, b⟩ := hd
    intro inS st acc hne
    by_cases htl : tl = []
    · subst htl
      rw [silLoop_cons]
      by_cases hcond1 : b = true ∧ inS = false
      · rw [if_pos hcond1]
        simp [silLoop, hcond1.1]
      · rw [if_neg hcond1]
        by_cases hcond2 : b = false ∧ inS = true
        · rw [if_pos hcond2]
          simp [silLoop, hcond2.1]
        · rw [if_neg hcond2]
          have hbi : inS = b := by
            cases b <;> cases inS <;> simp_all
          simp [silLoop, hbi]
    · have hlast : ((t, b) :: tl).getLast hne = tl.getLast htl := List.getLast_cons htl
      rw [hlast, silLoop_cons]
      by_cases hcond1 : b = true ∧ inS = false
      · rw [if_pos hcond1]
        exact ih true t acc htl
      · rw [if_neg hcond1]
        by_cases hcond2 : b = false ∧ inS = true
        · rw [if_pos hcond2]
          exact ih false st (acc ++ [(st, t)]) htl
        · rw [if_neg hcond2]
          exact ih inS st acc htl

theorem silTimes_pairwise (sr : ℚ) (hsr : 0 < sr) (n : ℕ) :
    List.Pairwise (fun a b => a < b) (silTimes sr n) := by
  unfold silTimes
  rw [List.pairwise_map]
  apply (List.pairwise_lt_range n).imp
  intro a b hab
  have h1 : (a : ℚ) < (b : ℚ) := by exact_mod_cast hab
  have h2 : (a : ℚ) * 512 < (b : ℚ) * 512 := by nlinarith
  exact div_lt_div_of_pos_right h2 hsr

theorem mem_silTimes_le_last (sr : ℚ) (hsr : 0 < sr) (n : ℕ) (x : ℚ)
    (hx : x ∈ silTimes sr n) : x ≤ ((n - 1 : ℕ) : ℚ) * 512 / sr := by
  unfold silTimes at hx
  obtain ⟨i, hi, rfl⟩ := List.mem_map.mp hx
  rw [List.mem_range] at hi
  have h1 : (i : ℚ) ≤ ((n - 1 : ℕ) : ℚ) := by
    have : i ≤ n - 1 := by omega
    exact_mod_cast this
  have h2 : (i : ℚ) * 512 ≤ ((n - 1 : ℕ) : ℚ) * 512 := by nlinarith
  exact (div_le_div_right hsr).mpr h2

theorem silTimes_getLastD (sr : ℚ) (n : ℕ) (hn : 0 < n) :
    (silTimes sr n).getLastD 0 = ((n - 1 : ℕ) : ℚ) * 512 / sr := by
  obtain ⟨m, rfl⟩ : ∃ m, n = m + 1 := ⟨n - 1, by omega⟩
  unfold silTimes
  rw [List.getLastD_eq_getLast?, List.getLast?_map]
  rw [show List.range (m + 1) = List.range m ++ [m] from List.range_succ m]
  rw [List.getLast?_concat]
  simp

theorem chain'_fst_of_disjoint :
    ∀ (l : List (ℚ × ℚ)), List.Chain' (fun p q => p.2 < q.1) l →
      (∀ p ∈ l, p.1 ≤ p.2) → List.Chain' (fun p q => p.1 < q.1) l := by
  intro l
  induction l with
  | nil => intro _ _; exact List.chain'_nil
  | cons a l ih =>
    intro h1 h2
    cases l with
    | nil => exact List.chain'_singleton a
    | cons b l2 =>
      rw [List.chain'_cons] at h1 ⊢
      refine ⟨?_, ih h1.2 (fun p hp => h2 p (List.mem_cons_of_mem a hp))⟩
      have ha := h2 a (List.mem_cons_self a _)
      calc a.1 ≤ a.2 := ha
        _ < b.1 := h1.1

theorem mem_of_getLast?_mem (l : List (ℚ × ℚ)) (x : ℚ × ℚ)
    (hx : x ∈ l.getLast?) : x ∈ l := by
  cases hacc : l.getLast? with
  | none => rw [hacc] at hx; cases hx
  | some a =>
    rw [hacc, Option.mem_some_iff] at hx
    subst hx
    have hne : l ≠ [] := by
      intro hnil
      rw [hnil] at hacc
      cases hacc
    have hsome := List.getLast?_eq_getLast_of_ne_nil hne
    rw [hacc] at hsome
    obtain rfl : a = l.getLast hne := Option.some.inj hsome
    exact List.getLast_mem hne

theorem zip_getLast_snd :
    ∀ (xs : List ℚ) (ys : List Bool), xs.length = ys.length →
      ∀ (h : xs.zip ys ≠ []) (hy : ys ≠ []),
        ((xs.zip ys).getLast h).2 = ys.getLast hy := by
  intro xs
  induction xs with
  | nil =>
    intro ys hlen h hy
    simp at h
  | cons x xs ih =>
    intro ys hlen h hy
    cases ys with
    | nil => exact absurd rfl hy
    | cons y ys2 =>
      cases xs with
      | nil =>
        cases ys2 with
        | nil => simp
        | cons b bs => simp at hlen
      | cons x2 xs2 =>
        cases ys2 with
        | nil => simp at hlen
        | cons b bs =>
          have hlen2 : (x2 :: xs2).length = (b :: bs).length := by simpa using hlen
          have hys2 : (b :: bs) ≠ [] := by simp
          have hzip2 : (x2 :: xs2).zip (b :: bs) ≠ [] := by simp
          have hstep : ((x :: x2 :: xs2).zip (y :: b :: bs)).getLast h
              = ((x2 :: xs2).zip (b :: bs)).getLast hzip2 :=
            List.getLast_cons hzip2
          rw [hstep, ih (b :: bs) hlen2 hzip2 hys2, List.getLast_cons hys2]

/-- Claim C2 amended: for every dB curve and threshold, the silence
intervals are pairwise non-overlapping (each interval ends strictly before
the next begins), sorted strictly ascending by start; every interval
satisfies `start ≤ end`, with `start < end` for every interval except
possibly the last — the closing interval degenerates to `start = end`
exactly when the final silent run consists of the last frame alone; and if
the clip ends while still silent, the last interval closes at the last
frame's time `(n-1)*512/sr`. -/
theorem C2_amended (sr : ℚ) (hsr : 0 < sr) (rmsDb : List ℚ) (thr : ℚ) :
    List.Chain' (fun p q => p.2 < q.1) (detect_silence sr rmsDb thr) ∧
    List.Chain' (fun p q => p.1 < q.1) (detect_silence sr rmsDb thr) ∧
    (∀ p ∈ detect_silence sr rmsDb thr, p.1 ≤ p.2) ∧
    (∀ p ∈ (detect_silence sr rmsDb thr).dropLast, p.1 < p.2) ∧
    (∀ h : rmsDb ≠ [], rmsDb.getLast h < thr →
      ∃ q, (detect_silence sr rmsDb thr).getLast? = some q ∧
        q.2 = ((rmsDb.length - 1 : ℕ) : ℚ) * 512 / sr) := by
  have hmapfst : (((silTimes sr rmsDb.length).zip
        (rmsDb.map (fun x => decide (x < thr)))).map Prod.fst)
      = silTimes sr rmsDb.length :=
    List.map_fst_zip _ _ (by simp [silTimes])
  have hA : List.Pairwise (fun a b => a < b)
      ((((silTimes sr rmsDb.length).zip
          (rmsDb.map (fun x => decide (x < thr)))).map Prod.fst)) := by
    rw [hmapfst]
    exact silTimes_pairwise sr hsr _
  rcases hloop : silLoop ((silTimes sr rmsDb.length).zip
      (rmsDb.map (fun x => decide (x < thr)))) false 0 [] with ⟨segs, inS, st⟩
  have hspec := silLoop_spec ((silTimes sr rmsDb.length).zip
      (rmsDb.map (fun x => decide (x < thr)))) false 0 [] hA List.chain'_nil
      (by simp) (by simp) (by simp) (by simp)
  rw [hloop] at hspec
  obtain ⟨hchain, hlt, hP3⟩ := hspec
  have hds : detect_silence sr rmsDb thr
      = (if inS = true then segs ++ [(st, (silTimes sr rmsDb.length).getLastD 0)]
         else segs) := by
    unfold detect_silence
    rw [hloop]
  by_cases hinS : inS = true
  · obtain ⟨hends, hstmem⟩ := hP3 hinS
    have hstmem' : st ∈ silTimes sr rmsDb.length := by
      rcases hstmem with ⟨hfalse, -⟩ | hmem
      · cases hfalse
      · rwa [hmapfst] at hmem
    have hn : 0 < rmsDb.length := by
      cases hlen0 : rmsDb.length with
      | zero =>
        rw [hlen0] at hstmem'
        simp [silTimes] at hstmem'
      | succ m => omega
    have hlastT := silTimes_getLastD sr rmsDb.length hn
    have hstle : st ≤ ((rmsDb.length - 1 : ℕ) : ℚ) * 512 / sr :=
      mem_silTimes_le_last sr hsr _ st hstmem'
    rw [hds, if_pos hinS]
    have hc1 : List.Chain' (fun p q => p.2 < q.1)
        (segs ++ [(st, (silTimes sr rmsDb.length).getLastD 0)]) := by
      apply List.Chain'.append hchain (List.chain'_singleton _)
      intro x hx y hy
      rw [List.head?_cons, Option.mem_some_iff] at hy
      subst hy
      exact hends x (mem_of_getLast?_mem segs x hx)
    have hle : ∀ p ∈ segs ++ [(st, (silTimes sr rmsDb.length).getLastD 0)],
        p.1 ≤ p.2 := by
      intro p hp
      rcases List.mem_append.mp hp with hp | hp
      · exact le_of_lt (hlt p hp)
      · rw [List.mem_singleton] at hp
        subst hp
        rw [hlastT]
        exact hstle
    refine ⟨hc1, chain'_fst_of_disjoint _ hc1 hle, hle, ?_, ?_⟩
    · rw [List.dropLast_concat]
      exact fun p hp => hlt p hp
    · intro h hsil
      exact ⟨(st, (silTimes sr rmsDb.length).getLastD 0),
        List.getLast?_concat _, hlastT⟩
  · rw [hds, if_neg hinS]
    have hle : ∀ p ∈ segs, p.1 ≤ p.2 := fun p hp => le_of_lt (hlt p hp)
    refine ⟨hchain, chain'_fst_of_disjoint _ hchain hle, hle, ?_, ?_⟩
    · exact fun p hp => hlt p ((List.dropLast_sublist segs).subset hp)
    · intro h hsil
      exfalso
      have hLne : (silTimes sr rmsDb.length).zip
          (rmsDb.map (fun x => decide (x < thr))) ≠ [] := by
        intro h0
        have hL : ((silTimes sr rmsDb.length).zip
            (rmsDb.map (fun x => decide (x < thr)))).length = rmsDb.length := by
          simp [silTimes]
        rw [h0] at hL
        simp at hL
        exact h (List.length_eq_zero.mp hL.symm)
      have hflag : inS = (((silTimes sr rmsDb.length).zip
          (rmsDb.map (fun x => decide (x < thr)))).getLast hLne).2 := by
        have := silLoop_last ((silTimes sr rmsDb.length).zip
            (rmsDb.map (fun x => decide (x < thr)))) false 0 [] hLne
        rw [hloop] at this
        exact this
      have hmapne : rmsDb.map (fun x => decide (x < thr)) ≠ [] := by
        intro h0
        exact h (List.map_eq_nil.mp h0)
      have hlast2 : (((silTimes sr rmsDb.length).zip
          (rmsDb.map (fun x => decide (x < thr)))).getLast hLne).2
          = (rmsDb.map (fun x => decide (x < thr))).getLast hmapne := by
        apply zip_getLast_snd
        simp [silTimes]
      have hlast3 : (rmsDb.map (fun x => decide (x < thr))).getLast hmapne
          = decide (rmsDb.getLast h < thr) := List.getLast_map _ _ hmapne
      rw [hflag, hlast2, hlast3, decide_eq_true hsil] at hinS
      exact hinS rfl

/-- Claim C2 fails on the code: when the final silent run consists of the
last frame alone, the closing interval uses `times[-1]` as its end, which
equals its start.  With `sr = 16000` and the two-frame dB curve
`[0, -50]` against the default threshold `-40`, the result is the
degenerate interval `(0.032, 0.032)`, violating `start < end`. -/
theorem C2_counterexample :
    ∃ p ∈ detect_silence 16000 [0, -50] (-40), ¬ (p.1 < p.2) := by
  have hsil : ([(0 : ℚ), -50].map (fun x => decide (x < (-40 : ℚ))))
      = [false, true] := by
    simp only [List.map_cons, List.map_nil]
    rw [decide_eq_false (by norm_num : ¬ ((0 : ℚ) < -40)),
      decide_eq_true (by norm_num : (-50 : ℚ) < -40)]
  have ht : silTimes 16000 2 = [0, 4 / 125] := by
    unfold silTimes
    rw [show List.range 2 = [0, 1] from by decide]
    simp only [List.map_cons, List.map_nil]
    norm_num
  unfold detect_silence
  rw [show ([(0 : ℚ), -50]).length = 2 from rfl, ht, hsil]
  refine ⟨((4 : ℚ) / 125, (4 : ℚ) / 125), ?_, by norm_num⟩
  show ((4 : ℚ) / 125, (4 : ℚ) / 125) ∈
    (match silLoop ([(0 : ℚ), 4 / 125].zip [false, true]) false 0 [] with
     | (segs, inS, st) =>
       if inS = true then segs ++ [(st, ([(0 : ℚ), 4 / 125]).getLastD 0)]
       else segs)
  rw [show silLoop ([(0 : ℚ), 4 / 125].zip [false, true]) false 0 []
      = ([], true, (4 : ℚ) / 125) from rfl]
  simp

/-- Witness for the amended C2 on the curve `[-50, -50, 0, -50]` (a silent
run, a loud frame, then a final single-frame silent run) at 16 kHz. -/
theorem C2_amended_witness :
    List.Chain' (fun p q => p.2 < q.1)
      (detect_silence 16000 [-50, -50, 0, -50] (-40)) ∧
    List.Chain' (fun p q => p.1 < q.1)
      (detect_silence 16000 [-50, -50, 0, -50] (-40)) ∧
    (∀ p ∈ detect_silence 16000 [-50, -50, 0, -50] (-40), p.1 ≤ p.2) ∧
    (∀ p ∈ (detect_silence 16000 [-50, -50, 0, -50] (-40)).dropLast,
      p.1 < p.2) ∧
    (∀ h : ([-50, -50, 0, -50] : List ℚ) ≠ [],
      ([-50, -50, 0, -50] : List ℚ).getLast h < -40 →
      ∃ q, (detect_silence 16000 [-50, -50, 0, -50] (-40)).getLast? = some q ∧
        q.2 = ((([-50, -50, 0, -50] : List ℚ).length - 1 : ℕ) : ℚ) * 512 / 16000) :=
  C2_amended 16000 (by norm_num) [-50, -50, 0, -50] (-40)

end SpeakPace
